import Mathlib

/-!
Shallow embedding of the vector-cookbook RAG notebooks
(`openai_pgvector_helloworld.ipynb` and the pgai-vectorizer notebook).

Python text is modelled as `List Char`.  The external tiktoken encoder is a
parameter `encode : List Char → List Nat` (the token list produced by
`tiktoken.get_encoding("cl100k_base").encode`); the notebook's own code is
translated faithfully on top of it.
-/

namespace VectorCookbook

/-- Model of Python `str.split()` (no separator argument): split on runs of
whitespace, never producing empty strings.  `acc` is the current word being
accumulated, in reverse. -/
def pyWordsAux : List Char → List Char → List (List Char)
  | [], acc => if acc = [] then [] else [acc.reverse]
  | c :: cs, acc =>
    if c.isWhitespace then
      (if acc = [] then [] else [acc.reverse]) ++ pyWordsAux cs []
    else pyWordsAux cs (c :: acc)

/-- Python `text.split()`. -/
def pyWords (s : List Char) : List (List Char) :=
  pyWordsAux s []

/-- Model of Python `sep.join(ws)`. -/
def pyJoin (sep : List Char) : List (List Char) → List Char
  | [] => []
  | [w] => w
  | w :: v :: ws => w ++ sep ++ pyJoin sep (v :: ws)

/-- Model of the Python slice `xs[start:stop]` for `0 ≤ start ≤ stop`
(out-of-range indices clamp, exactly as in Python). -/
def pySlice {α : Type} (xs : List α) (start stop : Nat) : List α :=
  (xs.drop start).take (stop - start)

/-- `num_tokens_from_string` from cell-9 of the pgvector notebook:
`if not string: return 0` and otherwise `len(encoding.encode(string))`.
`encode` stands for the fixed external encoding obtained from
`tiktoken.get_encoding(encoding_name)`. -/
def num_tokens_from_string (encode : List Char → List Nat) (string : List Char) : Nat :=
  if string = [] then 0 else (encode string).length

/-- A source record of `blog_posts_data.csv`: title, url, content. -/
structure Document where
  title : List Char
  url : List Char
  content : List Char

/-- An entry of `new_list` built by cell-13:
`[title, new_content_string, url, new_content_token_len]`. -/
structure Chunk where
  title : List Char
  content : List Char
  url : List Char
  tokens : Nat
deriving DecidableEq, Repr

/-- `ideal_token_size = 512` from cell-13. -/
def ideal_token_size : Nat := 512

/-- `ideal_size = int(ideal_token_size // (4/3))` from cell-13.  In IEEE-754
double arithmetic `4/3` rounds to a value slightly below `4/3`, so
`512 // (4/3)` is the floor of a number slightly above `384`, that is `384.0`,
and `int(...)` yields `384`. -/
def ideal_size : Nat := 384

/-- The inner `for j in range(chunks)` loop of cell-13, translated with the
mutable `start`/`end` indices passed explicitly.  The first argument is the
number of remaining iterations.  Each iteration clamps `end` to
`total_words`, slices `words[start:end]`, joins with spaces, measures tokens,
appends to the output only when the token count is positive, and advances
both indices by `ideal_size`. -/
def chunkLoopGo (encode : List Char → List Nat) (title url : List Char)
    (words : List (List Char)) : Nat → Nat → Nat → List Chunk
  | 0, _, _ => []
  | Nat.succ j, start, stop =>
    let stop2 := if stop > words.length then words.length else stop
    let new_content := pySlice words start stop2
    let new_content_string := pyJoin [' '] new_content
    let new_content_token_len := num_tokens_from_string encode new_content_string
    (if new_content_token_len > 0 then
        [⟨title, new_content_string, url, new_content_token_len⟩]
      else []) ++
      chunkLoopGo encode title url words j (start + ideal_size) (stop2 + ideal_size)

/-- The word list of cell-13: `words = text.split()` followed by
`words = [x for x in words if x != ' ']`. -/
def wordsOf (text : List Char) : List (List Char) :=
  (pyWords text).filter (fun x => x ≠ [' '])

/-- One iteration of the outer `for i in range(len(df.index))` loop of
cell-13: the chunks contributed to `new_list` by a single document. -/
def processDocument (encode : List Char → List Nat) (doc : Document) : List Chunk :=
  let token_len := num_tokens_from_string encode doc.content
  if token_len ≤ 512 then
    [⟨doc.title, doc.content, doc.url, token_len⟩]
  else
    let words := wordsOf doc.content
    let total_words := words.length
    let chunks := total_words / ideal_size +
      (if total_words % ideal_size = 0 then 0 else 1)
    chunkLoopGo encode doc.title doc.url words chunks 0 ideal_size

/-- The same per-document chunker with the line
`words = [x for x in words if x != ' ']` removed, used to compare the code
with and without the empty-token filter. -/
def processDocumentNoFilter (encode : List Char → List Nat) (doc : Document) :
    List Chunk :=
  let token_len := num_tokens_from_string encode doc.content
  if token_len ≤ 512 then
    [⟨doc.title, doc.content, doc.url, token_len⟩]
  else
    let words := pyWords doc.content
    let total_words := words.length
    let chunks := total_words / ideal_size +
      (if total_words % ideal_size = 0 then 0 else 1)
    chunkLoopGo encode doc.title doc.url words chunks 0 ideal_size

/-! ### Helper lemmas about `pyWords` and `pyJoin` -/

/-- Consuming a whitespace-free prefix just moves it into the accumulator. -/
lemma pyWordsAux_append (w : List Char) :
    ∀ (s acc : List Char), (∀ c ∈ w, c.isWhitespace = false) →
      pyWordsAux (w ++ s) acc = pyWordsAux s (w.reverse ++ acc) := by
  induction w with
  | nil => intro s acc _; simp
  | cons c w' ih =>
    intro s acc h
    have hc : c.isWhitespace = false := h c (List.mem_cons_self c w')
    have hw' : ∀ d ∈ w', d.isWhitespace = false :=
      fun d hd => h d (List.mem_cons_of_mem c hd)
    calc pyWordsAux ((c :: w') ++ s) acc
        = pyWordsAux (w' ++ s) (c :: acc) := by simp [pyWordsAux, hc]
      _ = pyWordsAux s (w'.reverse ++ (c :: acc)) := ih s (c :: acc) hw'
      _ = pyWordsAux s ((c :: w').reverse ++ acc) := by simp

/-- Every word produced by `pyWordsAux` is nonempty and whitespace-free,
provided the accumulator is whitespace-free. -/
lemma pyWordsAux_good :
    ∀ (s acc : List Char), (∀ c ∈ acc, c.isWhitespace = false) →
      ∀ w ∈ pyWordsAux s acc, w ≠ [] ∧ ∀ c ∈ w, c.isWhitespace = false := by
  intro s
  induction s with
  | nil =>
    intro acc hacc w hw
    by_cases h : acc = []
    · simp [pyWordsAux, h] at hw
    · simp [pyWordsAux, h] at hw
      subst hw
      refine ⟨by simpa using h, ?_⟩
      intro c hc
      exact hacc c (List.mem_reverse.mp hc)
  | cons c cs ih =>
    intro acc hacc w hw
    by_cases hws : c.isWhitespace
    · simp only [pyWordsAux, hws, if_pos, List.mem_append] at hw
      rcases hw with hw | hw
      · by_cases h : acc = []
        · simp [h] at hw
        · simp [h] at hw
          subst hw
          refine ⟨by simpa using h, ?_⟩
          intro d hd
          exact hacc d (List.mem_reverse.mp hd)
      · exact ih [] (by simp) w hw
    · have hcf : c.isWhitespace = false := by simpa using hws
      have hstep : pyWordsAux (c :: cs) acc = pyWordsAux cs (c :: acc) := by
        simp [pyWordsAux, hcf]
      rw [hstep] at hw
      refine ih (c :: acc) ?_ w hw
      intro d hd
      rcases List.mem_cons.mp hd with rfl | hd
      · exact hcf
      · exact hacc d hd

/-- Every word of `pyWords s` is nonempty and whitespace-free. -/
lemma pyWords_good (s : List Char) :
    ∀ w ∈ pyWords s, w ≠ [] ∧ ∀ c ∈ w, c.isWhitespace = false :=
  pyWordsAux_good s [] (by simp)

/-- The cell-13 filter `[x for x in words if x != ' ']` keeps every element
of `text.split()`: a split word is whitespace-free, hence never `" "`. -/
lemma pyWords_filter_id (s : List Char) :
    (pyWords s).filter (fun x => x ≠ [' ']) = pyWords s := by
  refine List.filter_eq_self.mpr ?_
  intro w hw
  rcases pyWords_good s w hw with ⟨-, hgood⟩
  simp only [decide_eq_true_eq]
  intro hcontra
  have : (' ' : Char).isWhitespace = false := by
    refine hgood ' ' ?_
    rw [hcontra]; simp
  simp [Char.isWhitespace] at this

/-- `wordsOf` coincides with the raw split. -/
lemma wordsOf_eq_pyWords (s : List Char) : wordsOf s = pyWords s :=
  pyWords_filter_id s

/-- Splitting the space-join of a list of nonempty, whitespace-free words
recovers the list. -/
lemma pyWords_pyJoin :
    ∀ ws : List (List Char),
      (∀ w ∈ ws, w ≠ [] ∧ ∀ c ∈ w, c.isWhitespace = false) →
      pyWords (pyJoin [' '] ws) = ws
  | [], _ => rfl
  | [w], h => by
    rcases h w (by simp) with ⟨hne, hgood⟩
    show pyWordsAux w [] = [w]
    have := pyWordsAux_append w [] [] hgood
    rw [List.append_nil] at this
    rw [this]
    simp [pyWordsAux, hne]
  | w :: v :: ws, h => by
    rcases h w (by simp) with ⟨hne, hgood⟩
    have hrest : ∀ u ∈ v :: ws, u ≠ [] ∧ ∀ c ∈ u, c.isWhitespace = false :=
      fun u hu => h u (List.mem_cons_of_mem w hu)
    show pyWordsAux (pyJoin [' '] (w :: v :: ws)) [] = w :: v :: ws
    have hjoin : pyJoin [' '] (w :: v :: ws) = w ++ (' ' :: pyJoin [' '] (v :: ws)) := by
      simp [pyJoin]
    rw [hjoin, pyWordsAux_append w _ [] hgood, List.append_nil]
    have hws : (' ' : Char).isWhitespace = true := by simp [Char.isWhitespace]
    simp only [pyWordsAux, hws, if_pos]
    have hrev : w.reverse ≠ [] := by simpa using hne
    rw [if_neg hrev]
    have := pyWords_pyJoin (v :: ws) hrest
    show w.reverse.reverse :: pyWordsAux (pyJoin [' '] (v :: ws)) [] = w :: v :: ws
    rw [List.reverse_reverse]
    exact congrArg (w :: ·) this

/-- The space-join of a nonempty list of nonempty words is nonempty. -/
lemma pyJoin_ne_nil :
    ∀ ws : List (List Char), ws ≠ [] → (∀ w ∈ ws, w ≠ []) →
      pyJoin [' '] ws ≠ []
  | [], hne, _ => absurd rfl hne
  | [w], _, h => by simpa [pyJoin] using h w (by simp)
  | w :: v :: ws, _, h => by
    have : w ≠ [] := h w (by simp)
    simp [pyJoin, this]

/-! ### The inner-loop invariant of cell-13 -/

/-- Invariant of the `for j in range(chunks)` loop: starting at iteration
`j` (so `start = ideal_size * j`, `end = start + ideal_size`) with `r`
iterations remaining and `j + r` equal to the total iteration count
`ceil(total_words / ideal_size)`, the loop emits exactly `r` chunks, their
word lists concatenate to `words[start:]`, and the last emitted chunk holds
the final slice.  `hpos` states that the external encoding assigns at least
one token to every nonempty string. -/
lemma chunkLoopGo_spec (encode : List Char → List Nat)
    (hpos : ∀ s : List Char, s ≠ [] → 0 < num_tokens_from_string encode s)
    (title url : List Char) (words : List (List Char))
    (hw : ∀ w ∈ words, w ≠ [] ∧ ∀ c ∈ w, c.isWhitespace = false) :
    ∀ r j : Nat, j + r = (words.length + ideal_size - 1) / ideal_size →
      (chunkLoopGo encode title url words r (ideal_size * j)
          (ideal_size * j + ideal_size)).length = r
      ∧ ((chunkLoopGo encode title url words r (ideal_size * j)
            (ideal_size * j + ideal_size)).map
            (fun c => pyWords c.content)).flatten = words.drop (ideal_size * j)
      ∧ (∀ c, (chunkLoopGo encode title url words r (ideal_size * j)
            (ideal_size * j + ideal_size)).getLast? = some c →
          pyWords c.content
            = words.drop
                (ideal_size * ((words.length + ideal_size - 1) / ideal_size - 1))) := by
  intro r
  induction r with
  | zero =>
    intro j hj
    simp only [ideal_size] at hj ⊢
    refine ⟨rfl, ?_, ?_⟩
    · have hle : words.length ≤ 384 * j := by omega
      show ([] : List (List (List Char))).flatten = words.drop (384 * j)
      rw [List.drop_eq_nil_of_le hle]
      rfl
    · intro c hc
      simp [chunkLoopGo] at hc
  | succ r ih =>
    intro j hj
    simp only [ideal_size] at hj ih ⊢
    have hlt : 384 * j < words.length := by omega
    have hgoodtail : ∀ w ∈ words.drop (384 * j),
        w ≠ [] ∧ ∀ c ∈ w, c.isWhitespace = false :=
      fun w hw2 => hw w (List.drop_subset _ _ hw2)
    rcases Nat.eq_zero_or_pos r with hr | hr
    · -- last iteration: the end index is clamped and the slice is the tail
      subst hr
      have hstop2 : (if 384 * j + 384 > words.length then words.length
          else 384 * j + 384) = words.length := by
        split <;> omega
      have hslice : pySlice words (384 * j) words.length
          = words.drop (384 * j) := by
        show (words.drop (384 * j)).take (words.length - 384 * j) = _
        exact List.take_of_length_le (le_of_eq (List.length_drop _ _))
      have hne : words.drop (384 * j) ≠ [] := by
        refine List.length_pos.mp ?_
        rw [List.length_drop]
        omega
      have hjoinne : pyJoin [' '] (words.drop (384 * j)) ≠ [] :=
        pyJoin_ne_nil _ hne (fun w hw2 => (hgoodtail w hw2).1)
      have htok : 0 < num_tokens_from_string encode
          (pyJoin [' '] (words.drop (384 * j))) := hpos _ hjoinne
      have hG : chunkLoopGo encode title url words 1 (384 * j) (384 * j + 384)
          = [⟨title, pyJoin [' '] (words.drop (384 * j)), url,
              num_tokens_from_string encode
                (pyJoin [' '] (words.drop (384 * j)))⟩] := by
        simp only [chunkLoopGo, ideal_size]
        rw [hstop2, hslice, if_pos htok]
        rfl
      rw [hG]
      refine ⟨rfl, ?_, ?_⟩
      · simp only [List.map_cons, List.map_nil, List.flatten_cons, List.flatten_nil,
          List.append_nil]
        exact pyWords_pyJoin _ hgoodtail
      · intro c hc
        simp only [List.getLast?_singleton, Option.some.injEq] at hc
        subst hc
        have hCj : (words.length + 384 - 1) / 384 - 1 = j := by omega
        rw [hCj]
        exact pyWords_pyJoin _ hgoodtail
    · -- not the last iteration: no clamping, the slice has exactly 384 words
      have hlt2 : 384 * j + 384 < words.length := by omega
      have hstop2 : (if 384 * j + 384 > words.length then words.length
          else 384 * j + 384) = 384 * j + 384 := by
        split <;> omega
      have hslice : pySlice words (384 * j) (384 * j + 384)
          = (words.drop (384 * j)).take 384 := by
        show (words.drop (384 * j)).take (384 * j + 384 - 384 * j) = _
        congr 1
        omega
      have hgoodslice : ∀ w ∈ (words.drop (384 * j)).take 384,
          w ≠ [] ∧ ∀ c ∈ w, c.isWhitespace = false :=
        fun w hw2 => hgoodtail w (List.take_subset _ _ hw2)
      have htake_ne : (words.drop (384 * j)).take 384 ≠ [] := by
        refine List.length_pos.mp ?_
        rw [List.length_take, List.length_drop]
        omega
      have hjoinne : pyJoin [' '] ((words.drop (384 * j)).take 384) ≠ [] :=
        pyJoin_ne_nil _ htake_ne (fun w hw2 => (hgoodslice w hw2).1)
      have htok : 0 < num_tokens_from_string encode
          (pyJoin [' '] ((words.drop (384 * j)).take 384)) := hpos _ hjoinne
      have hG : chunkLoopGo encode title url words (r + 1) (384 * j)
            (384 * j + 384)
          = ⟨title, pyJoin [' '] ((words.drop (384 * j)).take 384), url,
              num_tokens_from_string encode
                (pyJoin [' '] ((words.drop (384 * j)).take 384))⟩ ::
            chunkLoopGo encode title url words r (384 * (j + 1))
              (384 * (j + 1) + 384) := by
        simp only [chunkLoopGo, ideal_size]
        rw [hstop2, hslice, if_pos htok]
        have h1 : 384 * j + 384 = 384 * (j + 1) := by ring
        rw [h1]
        rfl
      have hIH := ih (j + 1) (by omega)
      rw [hG]
      refine ⟨?_, ?_, ?_⟩
      · simp only [List.length_cons, hIH.1]
      · simp only [List.map_cons, List.flatten_cons]
        rw [pyWords_pyJoin _ hgoodslice, hIH.2.1]
        have hdd : words.drop (384 * (j + 1))
            = (words.drop (384 * j)).drop 384 := by
          rw [List.drop_drop]
          congr 1
        rw [hdd]
        exact List.take_append_drop 384 (words.drop (384 * j))
      · intro c hc
        have hrestne : chunkLoopGo encode title url words r (384 * (j + 1))
            (384 * (j + 1) + 384) ≠ [] := by
          intro hmt
          have := hIH.1
          rw [hmt] at this
          simp at this
          omega
        rcases List.exists_cons_of_ne_nil hrestne with ⟨x, l, hxl⟩
        rw [hxl, List.getLast?_cons_cons] at hc
        refine hIH.2.2 c ?_
        rw [hxl]
        exact hc

/-- The iteration count computed by cell-13
(`chunks = total_words // ideal_size`, `+1` on a nonzero remainder) is the
ceiling division. -/
lemma chunks_eq_ceil (t : Nat) :
    t / ideal_size + (if t % ideal_size = 0 then 0 else 1)
      = (t + ideal_size - 1) / ideal_size := by
  simp only [ideal_size]
  split <;> omega

/-- On oversized content `processDocument` runs the inner loop for the
ceiling number of iterations starting from `start = 0`, `end = ideal_size`. -/
lemma processDocument_oversized (encode : List Char → List Nat)
    (title url content : List Char)
    (h512 : 512 < num_tokens_from_string encode content) :
    processDocument encode ⟨title, url, content⟩
      = chunkLoopGo encode title url (wordsOf content)
          (((wordsOf content).length + ideal_size - 1) / ideal_size)
          0 ideal_size := by
  simp only [processDocument]
  rw [if_neg (by omega), chunks_eq_ceil]

/-- All words of `wordsOf content` are nonempty and whitespace-free. -/
lemma wordsOf_good (content : List Char) :
    ∀ w ∈ wordsOf content, w ≠ [] ∧ ∀ c ∈ w, c.isWhitespace = false := by
  rw [wordsOf_eq_pyWords]
  exact pyWords_good content

/-! ### Concrete data for the witnesses -/

/-- A concrete instance of the external encoding: one token per character.
It satisfies the tokenizer property that nonempty text has positive token
count, which the real `cl100k_base` encoding also has (BPE encoding is
lossless, so nonempty input yields at least one token). -/
def charEnc : List Char → List Nat := fun s => s.map Char.toNat

/-- `charEnc` gives every nonempty string a positive token count. -/
lemma charEnc_pos : ∀ s : List Char, s ≠ [] → 0 < num_tokens_from_string charEnc s := by
  intro s hs
  unfold num_tokens_from_string charEnc
  rw [if_neg hs]
  simpa using List.length_pos.mpr hs

/-- A content of 2000 whitespace-separated words, as in the spec's concrete
scenario. -/
def content2000 : List Char := pyJoin [' '] (List.replicate 2000 ['a'])

/-- All the 2000 words are nonempty and whitespace-free. -/
lemma replicate_word_good (n : Nat) :
    ∀ w ∈ List.replicate n ['a'], w ≠ [] ∧ ∀ c ∈ w, c.isWhitespace = false := by
  intro w hw
  rw [List.eq_of_mem_replicate hw]
  refine ⟨by simp, ?_⟩
  intro c hc
  simp only [List.mem_singleton] at hc
  subst hc
  decide

/-- Splitting `content2000` gives back the 2000 words. -/
lemma wordsOf_content2000 : wordsOf content2000 = List.replicate 2000 ['a'] := by
  rw [wordsOf_eq_pyWords]
  exact pyWords_pyJoin _ (replicate_word_good 2000)

/-- Length of a space-join of `n + 1` single-character words. -/
lemma pyJoin_replicate_length (c : Char) :
    ∀ n, (pyJoin [' '] (List.replicate (n + 1) [c])).length = 2 * n + 1
  | 0 => rfl
  | n + 1 => by
    have h1 : List.replicate (n + 1 + 1) [c] = [c] :: [c] :: List.replicate n [c] := by
      simp [List.replicate_succ]
    rw [h1]
    have h2 : pyJoin [' '] ([c] :: [c] :: List.replicate n [c])
        = [c] ++ [' '] ++ pyJoin [' '] ([c] :: List.replicate n [c]) := rfl
    rw [h2]
    have h3 : ([c] : List Char) :: List.replicate n [c]
        = List.replicate (n + 1) [c] := by
      simp [List.replicate_succ]
    rw [h3, List.length_append, List.length_append,
      pyJoin_replicate_length c n]
    simp only [List.length_singleton]
    omega

/-- `content2000` measures 3999 tokens under `charEnc`. -/
lemma content2000_tokens : num_tokens_from_string charEnc content2000 = 3999 := by
  have hne : content2000 ≠ [] := by
    have hlen : (List.replicate 2000 (['a'] : List Char)).length = 2000 :=
      List.length_replicate _ _
    refine pyJoin_ne_nil _ (List.length_pos.mp (by rw [hlen]; norm_num)) ?_
    intro w hw
    exact (replicate_word_good 2000 w hw).1
  unfold num_tokens_from_string
  rw [if_neg hne]
  show (content2000.map Char.toNat).length = 3999
  rw [List.length_map]
  have h := pyJoin_replicate_length 'a' 1999
  have h2 : (1999 : Nat) + 1 = 2000 := rfl
  rw [h2] at h
  show (pyJoin [' '] (List.replicate 2000 ['a'])).length = 3999
  rw [h]

/-! ### Claim theorems -/

/-- C1: for content whose token count exceeds 512, the cell-13 chunking loop
produces exactly `ceil(total_words / ideal_size)` chunks, where `ideal_size
= int(512 // (4/3)) = 384` and `total_words` is the length of the
whitespace-split word list; in particular a content of 2000 words yields 6
chunks, the last one holding exactly the remaining 80 words.  `hpos` is the
tokenizer property that nonempty text has a positive token count. -/
theorem chunk_count_correct (encode : List Char → List Nat)
    (title url content : List Char)
    (hpos : ∀ s : List Char, s ≠ [] → 0 < num_tokens_from_string encode s)
    (h512 : 512 < num_tokens_from_string encode content) :
    (processDocument encode ⟨title, url, content⟩).length
        = ((wordsOf content).length + ideal_size - 1) / ideal_size
    ∧ ((wordsOf content).length = 2000 →
        (processDocument encode ⟨title, url, content⟩).length = 6
        ∧ ((processDocument encode ⟨title, url, content⟩).getLast?).map
              (fun c => (pyWords c.content).length) = some 80) := by
  have hspec := chunkLoopGo_spec encode hpos title url (wordsOf content)
    (wordsOf_good content)
    (((wordsOf content).length + ideal_size - 1) / ideal_size) 0 (by simp)
  simp only [Nat.mul_zero, Nat.zero_add] at hspec
  rw [processDocument_oversized encode title url content h512]
  refine ⟨hspec.1, ?_⟩
  intro h2000
  have hC : ((wordsOf content).length + ideal_size - 1) / ideal_size = 6 := by
    rw [h2000]
    norm_num [ideal_size]
  have hlen6 : (chunkLoopGo encode title url (wordsOf content)
      (((wordsOf content).length + ideal_size - 1) / ideal_size)
      0 ideal_size).length = 6 := by
    rw [hspec.1, hC]
  refine ⟨hlen6, ?_⟩
  have hne : chunkLoopGo encode title url (wordsOf content)
      (((wordsOf content).length + ideal_size - 1) / ideal_size)
      0 ideal_size ≠ [] := by
    intro hmt
    rw [hmt] at hlen6
    simp at hlen6
  have hsome : (chunkLoopGo encode title url (wordsOf content)
      (((wordsOf content).length + ideal_size - 1) / ideal_size)
      0 ideal_size).getLast?.isSome := List.getLast?_isSome.mpr hne
  rcases Option.isSome_iff_exists.mp hsome with ⟨c, hc⟩
  rw [hc]
  show some ((pyWords c.content).length) = some 80
  rw [hspec.2.2 c hc, List.length_drop, h2000]
  norm_num [ideal_size]

/-- C1 witness: on the concrete 2000-word content `content2000` the chunker
yields 6 chunks and the last chunk holds 80 words. -/
theorem chunk_count_correct_witness :
    (processDocument charEnc ⟨[], [], content2000⟩).length = 6
    ∧ ((processDocument charEnc ⟨[], [], content2000⟩).getLast?).map
          (fun c => (pyWords c.content).length) = some 80 :=
  (chunk_count_correct charEnc [] [] content2000 charEnc_pos
      (by rw [content2000_tokens]; norm_num)).2
    (by rw [wordsOf_content2000]; exact List.length_replicate _ _)

/-- C2: for content whose token count exceeds 512, concatenating the words
of the emitted chunks in emission order reconstructs the whitespace-split
word sequence of the original content exactly. -/
theorem chunks_reconstruct_words (encode : List Char → List Nat)
    (title url content : List Char)
    (hpos : ∀ s : List Char, s ≠ [] → 0 < num_tokens_from_string encode s)
    (h512 : 512 < num_tokens_from_string encode content) :
    ((processDocument encode ⟨title, url, content⟩).map
        (fun c => pyWords c.content)).flatten = wordsOf content := by
  have hspec := chunkLoopGo_spec encode hpos title url (wordsOf content)
    (wordsOf_good content)
    (((wordsOf content).length + ideal_size - 1) / ideal_size) 0 (by simp)
  simp only [Nat.mul_zero, Nat.zero_add] at hspec
  rw [processDocument_oversized encode title url content h512, hspec.2.1]
  exact List.drop_zero _

set_option maxRecDepth 10000 in
/-- C2 witness: the reconstruction property evaluated on a concrete
513-character content. -/
theorem chunks_reconstruct_words_witness :
    ((processDocument charEnc ⟨[], [], List.replicate 513 'a'⟩).map
        (fun c => pyWords c.content)).flatten
      = wordsOf (List.replicate 513 'a') :=
  chunks_reconstruct_words charEnc [] [] (List.replicate 513 'a') charEnc_pos
    (by decide)

/-- C3: for content whose token count is at most 512, the chunker emits
exactly one chunk: the original content unchanged, with the original title,
url and measured token count. -/
theorem small_content_single_chunk (encode : List Char → List Nat)
    (title url content : List Char)
    (h : num_tokens_from_string encode content ≤ 512) :
    processDocument encode ⟨title, url, content⟩
      = [⟨title, content, url, num_tokens_from_string encode content⟩] := by
  simp only [processDocument]
  rw [if_pos h]

/-- C3 witness: a two-character content passes through unchanged. -/
theorem small_content_single_chunk_witness :
    processDocument charEnc ⟨['t'], ['u'], ['h', 'i']⟩
      = [⟨['t'], ['h', 'i'], ['u'],
          num_tokens_from_string charEnc ['h', 'i']⟩] :=
  small_content_single_chunk charEnc ['t'] ['u'] ['h', 'i'] (by decide)

/-- Every chunk the inner loop ever emits passes the positive-token guard. -/
lemma chunkLoopGo_tokens_pos (encode : List Char → List Nat)
    (title url : List Char) (words : List (List Char)) :
    ∀ r start stop, (chunkLoopGo encode title url words r start stop).all
        (fun c => decide (0 < c.tokens)) = true := by
  intro r
  induction r with
  | zero => intro start stop; rfl
  | succ r ih =>
    intro start stop
    simp only [chunkLoopGo, List.all_append, Bool.and_eq_true]
    constructor
    · split <;> split
      all_goals first
        | rfl
        | (rename_i h; simp [h])
    · exact ih _ _

/-- C6: every chunk emitted by the chunking loop for oversized content has a
strictly positive token count — a word group measuring zero tokens is
discarded, never appended to `new_list`. -/
theorem oversized_chunk_tokens_pos (encode : List Char → List Nat)
    (doc : Document)
    (h512 : 512 < num_tokens_from_string encode doc.content) :
    (processDocument encode doc).all (fun c => decide (0 < c.tokens)) = true := by
  simp only [processDocument]
  rw [if_neg (by omega)]
  exact chunkLoopGo_tokens_pos encode doc.title doc.url _ _ _ _

set_option maxRecDepth 10000 in
/-- C6 witness: positive token counts on a concrete oversized document. -/
theorem oversized_chunk_tokens_pos_witness :
    (processDocument charEnc ⟨[], [], List.replicate 513 'a'⟩).all
        (fun c => decide (0 < c.tokens)) = true :=
  oversized_chunk_tokens_pos charEnc ⟨[], [], List.replicate 513 'a'⟩ (by decide)

/-- C9: the cell-13 filter `[x for x in words if x != ' ']` is a no-op —
`text.split()` never produces a `" "` (nor empty) element — and hence the
chunker with the filter line and the chunker without it are equal as
functions. -/
theorem filter_line_noop (s : List Char) (encode : List Char → List Nat)
    (doc : Document) :
    (pyWords s).filter (fun x => x ≠ [' ']) = pyWords s
    ∧ processDocument encode doc = processDocumentNoFilter encode doc := by
  refine ⟨pyWords_filter_id s, ?_⟩
  simp only [processDocument, processDocumentNoFilter, wordsOf,
    pyWords_filter_id]

/-- C8: the token counter returns a non-negative integer; empty (falsy)
input returns 0, and does so without invoking the encoder — the result on
empty input is the same under any encoder; the function is a pure function
of the text for a fixed encoding. -/
theorem num_tokens_contract (encode encode' : List Char → List Nat)
    (s : List Char) :
    (0 : Int) ≤ (num_tokens_from_string encode s : Int)
    ∧ num_tokens_from_string encode [] = 0
    ∧ num_tokens_from_string encode' [] = num_tokens_from_string encode [] :=
  ⟨Int.natCast_nonneg _, rfl, rfl⟩

/-! ### The embedding adapter (cell-14) -/

/-- An element of the `data` list of the embedding response. -/
structure EmbeddingItem (α : Type) where
  embedding : α

/-- Response of `openai_client.embeddings.create`. -/
structure EmbeddingResponse (α : Type) where
  data : List (EmbeddingItem α)

/-- The argument normalization of `get_embeddings`: every newline character
is replaced by a space before submission. -/
def replaceNewlines (text : List Char) : List Char :=
  text.map (fun c => if c = '\n' then ' ' else c)

/-- `get_embeddings` from cell-14.  `create` stands for the external
`openai_client.embeddings.create` call; the embedding vector type `α` is
abstract.  Python indexing with a possibly-empty `data` list is modelled
with `Option` (`none` standing for the raised `IndexError`). -/
def get_embeddings {α : Type} (create : List Char → EmbeddingResponse α)
    (text : List Char) : Option α :=
  ((create (replaceNewlines text)).data.head?).map (fun d => d.embedding)

/-- C7: the embedding adapter submits the text with every newline replaced
by a space (no newline survives; each submitted character is the original
one, or a space where the original was a newline) and returns the single
first embedding vector of the response. -/
theorem get_embeddings_spec {α : Type} (create : List Char → EmbeddingResponse α)
    (text : List Char) (item : EmbeddingItem α) (rest : List (EmbeddingItem α))
    (h : (create (replaceNewlines text)).data = item :: rest) :
    (replaceNewlines text).all (fun c => decide (c ≠ '\n')) = true
    ∧ List.Forall₂ (fun a b => b = if a = '\n' then ' ' else a)
        text (replaceNewlines text)
    ∧ get_embeddings create text = some item.embedding := by
  refine ⟨?_, ?_, ?_⟩
  · rw [replaceNewlines, List.all_map]
    refine List.all_eq_true.mpr ?_
    intro c _
    simp only [Function.comp_apply]
    split
    · decide
    · rename_i hch
      simp [hch]
  · rw [replaceNewlines]
    refine List.forall₂_map_right_iff.mpr ?_
    refine List.forall₂_same.mpr ?_
    intro a _
    rfl
  · rw [get_embeddings, h]
    rfl

/-- C7 witness: the adapter behaviour on a concrete text with a newline and
a concrete single-vector response. -/
theorem get_embeddings_spec_witness :
    (replaceNewlines ['a', '\n', 'b']).all (fun c => decide (c ≠ '\n')) = true
    ∧ List.Forall₂ (fun a b => b = if a = '\n' then ' ' else a)
        ['a', '\n', 'b'] (replaceNewlines ['a', '\n', 'b'])
    ∧ get_embeddings (fun _ => EmbeddingResponse.mk [EmbeddingItem.mk (5 : Nat)])
        ['a', '\n', 'b'] = some 5 :=
  get_embeddings_spec (fun _ => EmbeddingResponse.mk [EmbeddingItem.mk (5 : Nat)])
    ['a', '\n', 'b'] (EmbeddingItem.mk 5) [] rfl

/-! ### Retrieval and answer synthesis (cells 35 and 38, pgai cells) -/

/-- A stored row of the `embeddings` table as seen by the similarity query:
the `content` column, and the `embedding` vector of abstract type `V`. -/
structure StoredRow (V : Type) where
  content : String
  embedding : V

/-- Relational semantics of ordering the stored rows by
`embedding <=> query` ascending: a stable sort by distance.  `dist` stands
for the cosine-distance operator of the store. -/
def rankedRows {V : Type} (dist : V → V → ℚ) (query_embedding : V)
    (store : List (StoredRow V)) : List (StoredRow V) :=
  store.insertionSort
    (fun r1 r2 => dist r1.embedding query_embedding ≤ dist r2.embedding query_embedding)

/-- `get_top3_similar_docs` from cell-35: `SELECT content FROM embeddings
ORDER BY embedding <=> %s LIMIT 3` — the `content` column of the first
three rows in distance order. -/
def get_top3_similar_docs {V : Type} (dist : V → V → ℚ) (query_embedding : V)
    (store : List (StoredRow V)) : List String :=
  ((rankedRows dist query_embedding store).take 3).map (fun r => r.content)

/-- C5: the top-3 retrieval returns exactly 3 rows when the store holds at
least 3 (`min` captures both the exactly-3 and the fewer cases), an empty
result — not an error — on an empty store, and the returned rows are in
non-decreasing distance order to the query vector. -/
theorem get_top3_spec {V : Type} (dist : V → V → ℚ) (q : V)
    (store : List (StoredRow V)) :
    (get_top3_similar_docs dist q store).length = min 3 store.length
    ∧ List.Sorted (fun r1 r2 => dist r1.embedding q ≤ dist r2.embedding q)
        ((rankedRows dist q store).take 3)
    ∧ get_top3_similar_docs dist q ([] : List (StoredRow V)) = [] := by
  refine ⟨?_, ?_, rfl⟩
  · unfold get_top3_similar_docs rankedRows
    rw [List.length_map, List.length_take,
      List.Perm.length_eq (List.perm_insertionSort _ _)]
  · haveI : IsTotal (StoredRow V)
        (fun r1 r2 => dist r1.embedding q ≤ dist r2.embedding q) :=
      ⟨fun a b => le_total _ _⟩
    haveI : IsTrans (StoredRow V)
        (fun r1 r2 => dist r1.embedding q ≤ dist r2.embedding q) :=
      ⟨fun _ _ _ hab hbc => le_trans hab hbc⟩
    exact List.Pairwise.sublist (List.take_sublist _ _)
      (List.sorted_insertionSort _ store)

/-- The system message built in `process_input_with_retrieval` (cell-38);
the backslash line continuations of the Python triple-quoted string splice
the lines together without newlines. -/
def system_message : String :=
  "\n    You are a friendly chatbot.     You can answer questions about timescaledb, its features and its use cases.     You respond in a concise, technically credible tone.     "

/-- `process_input_with_retrieval` from cell-38.  The embedding and
chat-completion services are parameters; messages are (role, content)
pairs.  The Python code indexes `related_docs[0][0]`, `related_docs[1][0]`
and `related_docs[2][0]` unconditionally; missing rows raise `IndexError`,
modelled by `none`. -/
def process_input_with_retrieval {V : Type} (dist : V → V → ℚ)
    (store : List (StoredRow V)) (get_embedding : String → V)
    (complete : List (String × String) → String)
    (user_input : String) : Option String :=
  let delimiter := "```"
  let related_docs := get_top3_similar_docs dist (get_embedding user_input) store
  match related_docs[0]?, related_docs[1]?, related_docs[2]? with
  | some d0, some d1, some d2 =>
      some (complete
        [("system", system_message),
         ("user", delimiter ++ user_input ++ delimiter),
         ("assistant", "Relevant Timescale case studies information: \n " ++ d0
            ++ " \n " ++ d1 ++ " " ++ d2)])
  | _, _, _ => none

/-- The context-join of the pgai notebook's retrieval cell: each retrieved
row is rendered as a Chunk line and the lines are joined with blank
lines. -/
def pgai_context (rows : List String) : String :=
  String.intercalate "\n\n" (rows.map (fun row => "Chunk: " ++ row))

/-- The pgai generation cell: the chat completion is invoked on the string
holding the query and the joined context. -/
def pgai_generate (complete : String → String) (query : String)
    (rows : List String) : String :=
  complete ("Query: " ++ query ++ "\nContext: " ++ pgai_context rows)

/-- C4 counterexample: with an empty store, `process_input_with_retrieval`
does not proceed to the completion call — it fails (Python `IndexError` on
`related_docs[0][0]`, modelled by `none`). -/
theorem process_input_empty_store_fails :
    process_input_with_retrieval (fun _ _ => (0 : ℚ)) ([] : List (StoredRow Unit))
      (fun _ => ()) (fun _ => "answer") "How is Timescale used in IoT?" = none := rfl

/-- C4 (amended): when retrieval finds no rows, the pgai notebook's
generation cell still proceeds and calls the completion service with an
empty context string, but the pgvector notebook's
`process_input_with_retrieval` raises instead of proceeding when the store
is empty. -/
theorem empty_retrieval_behavior {V : Type} (dist : V → V → ℚ)
    (get_embedding : String → V) (complete : List (String × String) → String)
    (completeQ : String → String) (query : String) :
    pgai_generate completeQ query []
        = completeQ ("Query: " ++ query ++ "\nContext: ")
    ∧ process_input_with_retrieval dist ([] : List (StoredRow V)) get_embedding
        complete query = none := by
  constructor
  · show completeQ ("Query: " ++ query ++ "\nContext: " ++ pgai_context []) = _
    have hctx : pgai_context [] = "" := rfl
    rw [hctx, String.append_empty]
  · rfl

/-! ### Source-table ingestion of the pgai notebook (`insert_subset_data`) -/

/-- A product record of the pgai notebook: name and description strings. -/
structure Product where
  name : List Char
  description : List Char
deriving DecidableEq

/-- One line written by `insert_subset_data` into the `StringIO` buffer:
the name and the description joined by a tab, terminated by a newline. -/
def productLine (p : Product) : List Char :=
  p.name ++ '\t' :: (p.description ++ ['\n'])

/-- The whole buffer handed to `cur.copy_from`: the concatenation of the
per-product lines. -/
def insertPayload (subset : List Product) : List Char :=
  (subset.map productLine).flatten

/-- Split a character list at every occurrence of `sep`, keeping empty
pieces (the accumulator holds the current piece in reverse). -/
def splitOnCharAux (sep : Char) : List Char → List Char → List (List Char)
  | [], acc => [acc.reverse]
  | c :: cs, acc =>
    if c = sep then acc.reverse :: splitOnCharAux sep cs []
    else splitOnCharAux sep cs (c :: acc)

/-- Split at every occurrence of `sep`. -/
def splitOnChar (sep : Char) (s : List Char) : List (List Char) :=
  splitOnCharAux sep s []

/-- Reading model of text-format COPY with tab separator: the payload is
cut into records at newlines (a trailing newline terminates the last record
without adding an empty one) and each record is cut into fields at tabs. -/
def copyRecords (payload : List Char) : List (List (List Char)) :=
  let ls := splitOnChar '\n' payload
  (if ls.getLast? = some [] then ls.dropLast else ls).map (splitOnChar '\t')

/-- Consuming a separator-free prefix just moves it into the accumulator. -/
lemma splitOnCharAux_append (sep : Char) (w : List Char) :
    ∀ (s acc : List Char), sep ∉ w →
      splitOnCharAux sep (w ++ s) acc = splitOnCharAux sep s (w.reverse ++ acc) := by
  induction w with
  | nil => intro s acc _; simp
  | cons c w' ih =>
    intro s acc h
    have hc : ¬c = sep := fun hcontra => h (hcontra ▸ List.mem_cons_self c w')
    have hw' : sep ∉ w' := fun hmem => h (List.mem_cons_of_mem c hmem)
    calc splitOnCharAux sep ((c :: w') ++ s) acc
        = splitOnCharAux sep (w' ++ s) (c :: acc) := by
          simp [splitOnCharAux, hc]
      _ = splitOnCharAux sep s (w'.reverse ++ (c :: acc)) := ih s (c :: acc) hw'
      _ = splitOnCharAux sep s ((c :: w').reverse ++ acc) := by simp

/-- Splitting the newline-terminated concatenation of newline-free lines
yields the lines followed by one empty piece. -/
lemma splitOnChar_lines :
    ∀ lines : List (List Char), (∀ l ∈ lines, '\n' ∉ l) →
      splitOnChar '\n' ((lines.map (fun l => l ++ ['\n'])).flatten)
        = lines ++ [[]]
  | [], _ => rfl
  | l :: rest, h => by
    have hl : '\n' ∉ l := h l (List.mem_cons_self l rest)
    have hrest : ∀ u ∈ rest, '\n' ∉ u :=
      fun u hu => h u (List.mem_cons_of_mem l hu)
    have hshape : (((l :: rest).map (fun u => u ++ ['\n'])).flatten)
        = l ++ ('\n' :: ((rest.map (fun u => u ++ ['\n'])).flatten)) := by
      simp
    rw [splitOnChar, hshape, splitOnCharAux_append '\n' l _ [] hl,
      List.append_nil]
    show (if ('\n' : Char) = '\n' then
        l.reverse.reverse :: splitOnCharAux '\n'
          ((rest.map (fun u => u ++ ['\n'])).flatten) []
      else _) = (l :: rest) ++ [[]]
    rw [if_pos rfl, List.reverse_reverse]
    have := splitOnChar_lines rest hrest
    rw [splitOnChar] at this
    rw [this]
    rfl

/-- Splitting a tab-free/tab-free pair joined by a tab yields the two
fields. -/
lemma splitOnChar_tab_line (p : Product)
    (hn : '\t' ∉ p.name) (hd : '\t' ∉ p.description) :
    splitOnChar '\t' (p.name ++ '\t' :: p.description)
      = [p.name, p.description] := by
  rw [splitOnChar, splitOnCharAux_append '\t' p.name _ [] hn, List.append_nil]
  show (if ('\t' : Char) = '\t' then
      p.name.reverse.reverse :: splitOnCharAux '\t' p.description []
    else _) = [p.name, p.description]
  rw [if_pos rfl, List.reverse_reverse]
  have hdesc : splitOnCharAux '\t' (p.description ++ []) []
      = splitOnCharAux '\t' [] (p.description.reverse ++ []) :=
    splitOnCharAux_append '\t' p.description [] [] hd
  rw [List.append_nil, List.append_nil] at hdesc
  rw [hdesc]
  show [p.name, p.description.reverse.reverse] = [p.name, p.description]
  rw [List.reverse_reverse]

/-- C10: `insert_subset_data` serializes each product as one tab-separated
line of (name, description); the COPY payload parses back to exactly one
record of exactly two fields per product under the precondition that no
name or description contains a tab or newline — and for an input whose name
contains a newline the row alignment of the payload breaks (one product
becomes two records). -/
theorem copy_payload_roundtrip (subset : List Product)
    (hclean : ∀ p ∈ subset,
      ('\t' ∉ p.name ∧ '\n' ∉ p.name)
      ∧ ('\t' ∉ p.description ∧ '\n' ∉ p.description)) :
    copyRecords (insertPayload subset)
        = subset.map (fun p => [p.name, p.description])
    ∧ (copyRecords (insertPayload [⟨['a', '\n', 'b'], ['c']⟩])).length = 2 := by
  constructor
  · have hlines : ∀ l ∈ subset.map (fun p => p.name ++ '\t' :: p.description),
        '\n' ∉ l := by
      intro l hl
      rcases List.mem_map.mp hl with ⟨p, hp, rfl⟩
      rcases hclean p hp with ⟨⟨-, hnn⟩, ⟨-, hdn⟩⟩
      intro hmem
      rcases List.mem_append.mp hmem with hmem | hmem
      · exact hnn hmem
      · rcases List.mem_cons.mp hmem with hmem | hmem
        · exact absurd hmem (by decide)
        · exact hdn hmem
    have hpay : insertPayload subset
        = ((subset.map (fun p => p.name ++ '\t' :: p.description)).map
            (fun l => l ++ ['\n'])).flatten := by
      unfold insertPayload
      rw [List.map_map]
      congr 1
      refine List.map_congr_left ?_
      intro p _
      simp [productLine, Function.comp]
    rw [copyRecords, hpay,
      splitOnChar_lines (subset.map (fun p => p.name ++ '\t' :: p.description))
        hlines]
    rw [List.getLast?_concat, if_pos rfl, List.dropLast_concat, List.map_map]
    refine List.map_congr_left ?_
    intro p hp
    rcases hclean p hp with ⟨⟨hnt, -⟩, ⟨hdt, -⟩⟩
    simp only [Function.comp_apply]
    exact splitOnChar_tab_line p hnt hdt
  · decide

/-- C10 witness: a concrete clean product round-trips, and the concrete
newline-containing product breaks alignment. -/
theorem copy_payload_roundtrip_witness :
    copyRecords (insertPayload [⟨['x'], ['y']⟩]) = [[['x'], ['y']]]
    ∧ (copyRecords (insertPayload [⟨['a', '\n', 'b'], ['c']⟩])).length = 2 :=
  copy_payload_roundtrip [⟨['x'], ['y']⟩] (by decide)

end VectorCookbook
